import Mathlib

/-!
Verification of the reinforcement-learning layer of PyTorch_Lib
(pymatch/ReinforcementLearning/policy_gradient.py):
action selectors, episode play loops, fit-epoch aggregation, the TD target
construction, and the discounted-return transform of the episode memory.

Numbers are embedded as rationals (ℚ); tensors of Q-values or probabilities
as lists of rationals; the random draws consumed by the selectors
(np.random.uniform, np.random.choice, Categorical.sample) are passed as
explicit arguments, and torch's exp/log (used by softmax and Categorical)
as explicit function arguments.
-/

namespace PyMatch

/-- Modelled from the spec: `Memory.cumul_reward` lives in
pymatch/ReinforcementLearning/memory.py, which is not among the repository
files provided; the spec defines it as rewriting the reward field in place,
traversed from the last step backward, by `G_t = r_t + γ·G_{t+1}` with
`G_T = 0`.  The recursion below computes exactly that backward recurrence:
the head entry is `r_0 + γ · G_1` where `G_1` is the head of the transform
of the tail (0 when the tail is empty, the terminal boundary). -/
def cumulReward (gamma : ℚ) : List ℚ → List ℚ
  | [] => []
  | r :: rs => (r + gamma * (cumulReward gamma rs).headD 0) :: cumulReward gamma rs

/-- Compute devices an agent or model can live on (the learners are built
with device='cpu' or 'cuda'). -/
inductive Device
  | cpu
  | cuda
deriving DecidableEq

/-- External neural network (torch nn.Module): a callable from an
observation to a vector of action probabilities or Q-values, living on a
device.  `forward` is the mathematical function the module computes. -/
structure Model where
  forward : List ℚ → List ℚ
  device : Device

/-- Embedding of `model.to(device)`: torch's `nn.Module.to` moves the module
to the device in place and returns it; the parameters (hence `forward`) are
unchanged, only the placement changes. -/
def Model.to (m : Model) (d : Device) : Model :=
  { m with device := d }

/-- The slice of the learner the selectors touch: `agent.model` and
`agent.device` (policy_gradient.py accesses nothing else of the agent). -/
structure Agent where
  model : Model
  device : Device

/-- First index of the running maximum: `rest` is the unscanned tail, `i`
the index of its head, `bi`/`bv` the best index and value seen so far.
A strict comparison keeps the earliest maximal index, matching
torch.argmax, which returns the first maximal index. -/
def argmaxAux : List ℚ → ℕ → ℕ → ℚ → ℕ
  | [], _, bi, _ => bi
  | q :: rest, i, bi, bv =>
    if bv < q then argmaxAux rest (i + 1) i q else argmaxAux rest (i + 1) bi bv

/-- Embedding of `qs.argmax().item()`: the first index of the maximal entry
(0 for an empty vector, where torch would raise). -/
def argmaxIdx : List ℚ → ℕ
  | [] => 0
  | q :: rest => argmaxAux rest 1 0 q

/-- Embedding of `F.softmax(xs, ...)` with the exponential passed explicitly
as `expf`: exponentiate entrywise and normalise by the sum. -/
def softmaxList (expf : ℚ → ℚ) (xs : List ℚ) : List ℚ :=
  (xs.map expf).map fun e => e / (xs.map expf).sum

/-- PolicyGradientActionSelection (policy_gradient.py lines 15-26): fieldless
probability-based selection strategy. -/
structure PolicyGradientActionSelection where

/-- Embedding of `PolicyGradientActionSelection.__call__` (lines 19-26):
moves the agent's model to the agent's device, forwards the observation to
get a probability vector, samples from `Categorical(probs)` (the sampled
index is the explicit draw, reduced modulo the support size), and returns
the action with its log-probability (`logf` embeds torch's log).
The returned triple makes every state the call can touch explicit:
(selector, agent, action-and-log-prob). -/
def PolicyGradientActionSelection.call (sel : PolicyGradientActionSelection)
    (agent : Agent) (observation : List ℚ) (draw : ℕ) (logf : ℚ → ℚ) :
    PolicyGradientActionSelection × Agent × ℕ × ℚ :=
  let moved : Agent := { agent with model := agent.model.to agent.device }
  let probs := moved.model.forward observation
  let action := draw % probs.length
  (sel, moved, action, logf (probs.getD action 0))

/-- BayesianDropoutPGActionSelection (lines 29-50): holds the number of
stochastic forward passes (`reduce_hat`, an EnsembleHatStd reducing the
stacked passes to mean and std, is not among the repository files; the std
it also returns is computed and discarded by `__call__`). -/
structure BayesianDropoutPGActionSelection where
  predictions : ℕ

/-- Entrywise mean of a stack of probability rows, the mean-reduction of
the ensemble hat applied to `model(torch.cat(N * [observation]))`. -/
def meanRows (rows : List (List ℚ)) : List ℚ :=
  match rows with
  | [] => []
  | r :: _ =>
    (List.range r.length).map fun j =>
      (rows.map fun row => row.getD j 0).sum / (rows.length : ℚ)

/-- Embedding of `BayesianDropoutPGActionSelection.__call__` (lines 42-50):
moves the model to the agent's device, runs `predictions` dropout forward
passes (`dropoutPass i observation` is the i-th stochastic pass of the
model on the observation), reduces them to their mean distribution, and
samples from it, returning action and log-probability. -/
def BayesianDropoutPGActionSelection.call
    (sel : BayesianDropoutPGActionSelection) (agent : Agent)
    (observation : List ℚ) (dropoutPass : ℕ → List ℚ → List ℚ) (draw : ℕ)
    (logf : ℚ → ℚ) :
    BayesianDropoutPGActionSelection × Agent × ℕ × ℚ :=
  let moved : Agent := { agent with model := agent.model.to agent.device }
  let probMean := meanRows ((List.range sel.predictions).map
    fun i => dropoutPass i observation)
  let action := draw % probMean.length
  (sel, moved, action, logf (probMean.getD action 0))

/-- QActionSelection (lines 53-69): temperature-based exponential selection
strategy; the constructor stores the temperature (default 1) and nothing in
the class validates or constrains it. -/
structure QActionSelection where
  temperature : ℚ

/-- The temperature scaling `qs / self.temperature` of line 66, applied
unconditionally to the model's Q-values (rational division is total, with
division by zero mirroring the absence of any guard in the source). -/
def QActionSelection.scaledQ (sel : QActionSelection) (qs : List ℚ) : List ℚ :=
  qs.map fun q => q / sel.temperature

/-- Embedding of `QActionSelection.__call__` (lines 63-69): moves the model
to the agent's device, forwards the observation to Q-values, softmaxes the
temperature-scaled Q-values, and samples from the resulting categorical
distribution. -/
def QActionSelection.call (sel : QActionSelection) (agent : Agent)
    (observation : List ℚ) (expf : ℚ → ℚ) (draw : ℕ) :
    QActionSelection × Agent × ℕ :=
  let moved : Agent := { agent with model := agent.model.to agent.device }
  let qs := moved.model.forward observation
  let probs := softmaxList expf (sel.scaledQ qs)
  let action := draw % probs.length
  (sel, moved, action)

/-- EpsilonGreedyActionSelection (lines 72-89): declared action space and
probability `epsilon` for taking the argmax branch. -/
structure EpsilonGreedyActionSelection where
  action_space : List ℕ
  epsilon : ℚ

/-- Embedding of `EpsilonGreedyActionSelection.__call__` (lines 84-89):
moves the model to the agent's device, forwards the observation to
Q-values; if the uniform draw `u` (np.random.uniform, a value in `[0,1)`)
is below epsilon, returns the argmax action, otherwise returns the member
of `action_space` picked by the uniform index draw `choice`
(np.random.choice). -/
def EpsilonGreedyActionSelection.call (sel : EpsilonGreedyActionSelection)
    (agent : Agent) (observation : List ℚ) (u : ℚ) (choice : ℕ) :
    EpsilonGreedyActionSelection × Agent × ℕ :=
  let moved : Agent := { agent with model := agent.model.to agent.device }
  let qs := moved.model.forward observation
  if u < sel.epsilon then (sel, moved, argmaxIdx qs)
  else (sel, moved, sel.action_space.getD (choice % sel.action_space.length) 0)

/-- GreedyValueSelection (lines 92-98): fieldless deterministic selection. -/
structure GreedyValueSelection where

/-- Embedding of `GreedyValueSelection.__call__` (lines 96-98): it forwards
the observation (only the observation tensor is moved to the agent's
device, a non-mutating tensor copy; this selector never calls
`agent.model.to`) and returns the argmax action.  The agent is untouched. -/
def GreedyValueSelection.call (sel : GreedyValueSelection) (agent : Agent)
    (observation : List ℚ) : GreedyValueSelection × Agent × ℕ :=
  (sel, agent, argmaxIdx (agent.model.forward observation))

/-- Embedding of the TD-target row construction of `QLearner.fit_epoch`
(lines 361-365): `target = prediction.clone().detach()` copies the
predicted Q-row, then `t[a] += alpha * (r + gamma * m - t[a])` adjusts the
taken action's entry only. -/
def tdTargetRow (alpha gamma : ℚ) (prediction : List ℚ) (a : ℕ)
    (r m : ℚ) : List ℚ :=
  prediction.set a
    (prediction.getD a 0 + alpha * (r + gamma * m - prediction.getD a 0))

/-- The loop-exit test of `play_episode` (lines 275-276 and 400-401):
`terminate = done or (max_episode_length is not None and step_counter >=
max_episode_length)`.  Steps are indexed from 0 here, so after step `i` the
source's `step_counter` is `i + 1`; `env i` is the (reward, done) pair the
environment returns at step `i`. -/
def termAt (env : ℕ → ℚ × Bool) (maxLen : Option ℕ) (i : ℕ) : Bool :=
  (env i).2 ||
    (match maxLen with
     | some L => decide (L ≤ i + 1)
     | none => false)

/-- Embedding of the `while not terminate` loop shared by
`PolicyGradient.play_episode` (lines 267-281) and `QLearner.play_episode`
(lines 387-405): each step accumulates `episode_reward += reward`,
memorizes the step's reward into the episode memory, and stops as soon as
`terminate` holds (QLearner's extra `if done: break` is redundant, since
`done` already sets `terminate`).  The unbounded Python loop becomes total
through a fuel argument: `none` means the loop did not finish within `fuel`
steps.  The result is (episode_reward, number of steps, the episode
memory's reward column). -/
def playLoop (env : ℕ → ℚ × Bool) (maxLen : Option ℕ) :
    ℕ → ℕ → ℚ → List ℚ → Option (ℚ × ℕ × List ℚ)
  | 0, _, _, _ => none
  | fuel + 1, i, acc, mem =>
    if termAt env maxLen i then
      some (acc + (env i).1, i + 1, mem ++ [(env i).1])
    else playLoop env maxLen fuel (i + 1) (acc + (env i).1) (mem ++ [(env i).1])

/-- Modelled from the spec: `Memory.memorize(episode_memory, names)` (memory
code not among the repository files) merges the episode records into the
persistent buffer, appending the episode's reward column after the rewards
already held.  `PolicyGradient.play_episode` calls
`episode_memory.cumul_reward()` first (line 282), so the persistent buffer
receives the discounted returns. -/
def pgMergedRewards (gamma : ℚ) (old epmem : List ℚ) : List ℚ :=
  old ++ cumulReward gamma epmem

/-- Modelled from the spec: the same merge for `QLearner.play_episode`
(line 407), which applies no transform, so the persistent buffer receives
the raw environment rewards. -/
def qlMergedRewards (old epmem : List ℚ) : List ℚ :=
  old ++ epmem

/-- Embedding of `np.mean` on the collected loss list (line 242). -/
def npMean (xs : List ℚ) : ℚ :=
  xs.sum / (xs.length : ℚ)

/-- Embedding of the batch loop of `PolicyGradient.fit_epoch` (lines
235-241): `losses += [loss.item()]` per batch, with the per-batch loss
`crit(log_prob, reward)` supplied as the function `crit` (REINFORCELoss is
not among the repository files). -/
def pgFitLoop (crit : List ℚ × List ℚ → ℚ) :
    List (List ℚ × List ℚ) → List ℚ → List ℚ
  | [], losses => losses
  | b :: bs, losses => pgFitLoop crit bs (losses ++ [crit b])

/-- Embedding of `PolicyGradient.fit_epoch` (lines 235-248) after the
memory update: collect the per-batch losses, take their mean, append it to
`train_dict['train_losses']`, return it.  The result is (returned loss,
updated train_losses). -/
def pgFitEpoch (crit : List ℚ × List ℚ → ℚ)
    (batches : List (List ℚ × List ℚ)) (trainLosses : List ℚ) :
    ℚ × List ℚ :=
  (npMean (pgFitLoop crit batches []),
   trainLosses ++ [npMean (pgFitLoop crit batches [])])

/-- Embedding of the batch loop of `QLearner.fit_epoch` (lines 356-370):
per batch, `self.train_dict['train_losses'] += [loss.item()]`, and the
local name `loss` is rebound to that batch's loss.  `lossOf` abstracts the
per-batch loss `crit(prediction, target)` whose target construction is
embedded separately as `tdTargetRow`.  The `Option ℚ` threads the local
`loss` name: `none` while it is unbound. -/
def qlFitLoop {B : Type} (lossOf : B → ℚ) :
    List B → List ℚ → Option ℚ → List ℚ × Option ℚ
  | [], trainLosses, last => (trainLosses, last)
  | b :: bs, trainLosses, _ =>
    qlFitLoop lossOf bs (trainLosses ++ [lossOf b]) (some (lossOf b))

/-- Embedding of `QLearner.fit_epoch` (lines 349-377) after the memory
update: run the batch loop and `return loss`.  A `none` in the second
component models the UnboundLocalError of `return loss` when the loop body
never ran. -/
def qlFitEpoch {B : Type} (lossOf : B → ℚ) (batches : List B)
    (trainLosses : List ℚ) : List ℚ × Option ℚ :=
  qlFitLoop lossOf batches trainLosses none

/-- Embedding of the best-performance update run after every episode
(lines 286-287 and 410-411): `if episode_reward >
self.train_dict.get('best_performance', -np.inf): ... = episode_reward`.
An absent key is `none`, and every rational exceeds -inf, so the first
episode always sets the key. -/
def bestPerfUpdate (best : Option ℚ) (r : ℚ) : Option ℚ :=
  match best with
  | none => some r
  | some b => if b < r then some r else some b

/-- The value of `train_dict['best_performance']` after playing the listed
episode rewards in order, starting from a fresh train_dict. -/
def bestPerfAfter (rewards : List ℚ) : Option ℚ :=
  rewards.foldl bestPerfUpdate none

/-- Concrete episode trace for witnesses: reward 1 every step, done flag
first raised at step 1 (the second step). -/
def envEx : ℕ → ℚ × Bool :=
  fun i => (1, decide (i = 1))

/-- Concrete REINFORCE-style criterion for witnesses. -/
def critEx : List ℚ × List ℚ → ℚ :=
  fun b => b.1.sum

/-- Concrete model for witnesses: Q-values (1, 3, 2) on every observation. -/
def modelEx : Model :=
  { forward := fun _ => [1, 3, 2], device := Device.cpu }

/-- Concrete agent for witnesses, already on its device. -/
def agentEx : Agent :=
  { model := modelEx, device := Device.cpu }

/-- Concrete epsilon-greedy selector for witnesses. -/
def egSelEx : EpsilonGreedyActionSelection :=
  { action_space := [0, 1, 2], epsilon := 1 / 2 }

/-- Concrete model whose placement differs from its agent's device: the
agent below asks for cuda while the model still sits on cpu, the state
every learner is in before the first selector call moves the model. -/
def cexModel : Model :=
  { forward := fun qs => qs, device := Device.cpu }

/-- Concrete agent holding `cexModel` but targeting cuda. -/
def cexAgent : Agent :=
  { model := cexModel, device := Device.cuda }

/-- Concrete selector for the frame counterexample. -/
def cexSelector : EpsilonGreedyActionSelection :=
  { action_space := [0, 1], epsilon := 1 }

theorem cumulReward_length (gamma : ℚ) (rs : List ℚ) :
    (cumulReward gamma rs).length = rs.length := by
  induction rs with
  | nil => rfl
  | cons r rs ih => simp [cumulReward, ih]

theorem headD_eq_getD_zero (l : List ℚ) : l.headD 0 = l.getD 0 0 := by
  cases l <;> rfl

/-- The backward recurrence, stated with default-0 indexing so that the
terminal boundary `G_T = 0` is the out-of-range default. -/
theorem cumulReward_recurrence (gamma : ℚ) (rs : List ℚ) (t : ℕ) :
    (cumulReward gamma rs).getD t 0 =
      rs.getD t 0 + gamma * (cumulReward gamma rs).getD (t + 1) 0 := by
  induction rs generalizing t with
  | nil => simp [cumulReward]
  | cons r rs ih =>
    cases t with
    | zero =>
      simp only [cumulReward, List.getD_cons_zero, List.getD_cons_succ]
      rw [headD_eq_getD_zero]
    | succ t =>
      simp only [cumulReward, List.getD_cons_succ]
      exact ih t

/-- Closed form of the discounted return: `G_t = Σ_k γ^k · r_{t+k}`. -/
theorem cumulReward_closed_form (gamma : ℚ) (rs : List ℚ) (t : ℕ) :
    (cumulReward gamma rs).getD t 0 =
      ∑ k ∈ Finset.range (rs.length - t), gamma ^ k * rs.getD (t + k) 0 := by
  induction rs generalizing t with
  | nil => simp [cumulReward]
  | cons r rs ih =>
    cases t with
    | zero =>
      simp only [cumulReward, List.getD_cons_zero, List.length_cons,
        Nat.sub_zero, Nat.zero_add]
      rw [headD_eq_getD_zero, ih 0]
      simp only [Nat.sub_zero, Nat.zero_add]
      rw [Finset.sum_range_succ']
      simp only [List.getD_cons_succ, List.getD_cons_zero, pow_zero, one_mul,
        pow_succ]
      have hcongr : ∑ k ∈ Finset.range rs.length, gamma ^ k * gamma * rs.getD k 0
          = ∑ k ∈ Finset.range rs.length, gamma * (gamma ^ k * rs.getD k 0) :=
        Finset.sum_congr rfl fun k _ => by ring
      rw [hcongr, ← Finset.mul_sum]
      ring
    | succ t =>
      simp only [cumulReward, List.getD_cons_succ, List.length_cons,
        Nat.succ_sub_succ]
      rw [ih t]
      refine Finset.sum_congr rfl fun k _ => ?_
      have h : t + 1 + k = (t + k) + 1 := by omega
      rw [h, List.getD_cons_succ]

/-- C1: cumul_reward rewrites the reward sequence into discounted returns,
satisfying the backward recurrence `G_t = r_t + γ·G_{t+1}` with `G_T = 0`
(out-of-range entries read 0), equivalently the closed form
`G_t = Σ_k γ^k · r_{t+k}`; the length is preserved, and on the example
rewards `[1,1,1]` with `γ = 1/2` the result is `[7/4, 3/2, 1]`. -/
theorem cumul_reward_discounted_returns :
    (∀ gamma : ℚ, ∀ rs : List ℚ, ∀ t : ℕ,
      (cumulReward gamma rs).getD t 0 =
        rs.getD t 0 + gamma * (cumulReward gamma rs).getD (t + 1) 0) ∧
    (∀ gamma : ℚ, ∀ rs : List ℚ, ∀ t : ℕ,
      (cumulReward gamma rs).getD t 0 =
        ∑ k ∈ Finset.range (rs.length - t), gamma ^ k * rs.getD (t + k) 0) ∧
    (∀ gamma : ℚ, ∀ rs : List ℚ, (cumulReward gamma rs).length = rs.length) ∧
    cumulReward (1 / 2) [1, 1, 1] = [7 / 4, 3 / 2, 1] := by
  refine ⟨cumulReward_recurrence, cumulReward_closed_form, cumulReward_length, ?_⟩
  norm_num [cumulReward]

theorem le_foldl_max (l : List ℚ) : ∀ a : ℚ, a ≤ l.foldl max a := by
  induction l with
  | nil => intro a; exact le_refl a
  | cons q rest ih => intro a; exact le_trans (le_max_left a q) (ih (max a q))

theorem mem_le_foldl_max (l : List ℚ) : ∀ a : ℚ, ∀ q ∈ l, q ≤ l.foldl max a := by
  induction l with
  | nil => intro a q hq; cases hq
  | cons p rest ih =>
    intro a q hq
    rcases List.mem_cons.1 hq with h | h
    · subst h; exact le_trans (le_max_right a q) (le_foldl_max rest (max a q))
    · exact ih (max a p) q h

theorem foldl_max_mem (l : List ℚ) : ∀ a : ℚ, l.foldl max a = a ∨ l.foldl max a ∈ l := by
  induction l with
  | nil => intro a; exact Or.inl rfl
  | cons q rest ih =>
    intro a
    rcases ih (max a q) with h | h
    · rcases le_total a q with hle | hle
      · right
        rw [List.foldl_cons, h, max_eq_right hle]
        exact List.mem_cons_self q rest
      · left
        rw [List.foldl_cons, h, max_eq_left hle]
    · right
      exact List.mem_cons_of_mem q h

/-- Invariant of the argmax scan: when `l` is the tail of `qs` starting at
index `i`, `bi` an already-seen index of `qs` and `bv` its value, the scan
returns an in-range index of `qs` whose value is the running maximum. -/
theorem argmaxAux_spec (qs : List ℚ) :
    ∀ (l : List ℚ) (i bi : ℕ) (bv : ℚ),
      i + l.length = qs.length →
      (∀ k, k < l.length → l.getD k 0 = qs.getD (i + k) 0) →
      bi < i → qs.getD bi 0 = bv →
      argmaxAux l i bi bv < qs.length ∧
        qs.getD (argmaxAux l i bi bv) 0 = l.foldl max bv := by
  intro l
  induction l with
  | nil =>
    intro i bi bv hlen hidx hbi hval
    simp only [argmaxAux, List.foldl_nil, List.length_nil] at *
    exact ⟨by omega, hval⟩
  | cons q rest ih =>
    intro i bi bv hlen hidx hbi hval
    have hlen' : i + 1 + rest.length = qs.length := by
      simp only [List.length_cons] at hlen
      omega
    have hidx' : ∀ k, k < rest.length → rest.getD k 0 = qs.getD (i + 1 + k) 0 := by
      intro k hk
      have h1 := hidx (k + 1) (by simp only [List.length_cons]; omega)
      have h2 : i + (k + 1) = i + 1 + k := by omega
      rw [h2] at h1
      simpa using h1
    have h0 : qs.getD i 0 = q := by
      have := hidx 0 (by simp)
      simpa using this.symm
    simp only [argmaxAux]
    by_cases hlt : bv < q
    · rw [if_pos hlt]
      rcases ih (i + 1) i q hlen' hidx' (Nat.lt_succ_self i) h0 with ⟨h1, h2⟩
      refine ⟨h1, ?_⟩
      rw [h2, List.foldl_cons, max_eq_right (le_of_lt hlt)]
    · rw [if_neg hlt]
      rcases ih (i + 1) bi bv hlen' hidx' (by omega) hval with ⟨h1, h2⟩
      refine ⟨h1, ?_⟩
      rw [h2, List.foldl_cons, max_eq_left (le_of_not_lt hlt)]

theorem argmaxIdx_spec (q : ℚ) (rest : List ℚ) :
    argmaxIdx (q :: rest) < (q :: rest).length ∧
      (q :: rest).getD (argmaxIdx (q :: rest)) 0 = rest.foldl max q := by
  have h := argmaxAux_spec (q :: rest) rest 1 0 q
    (by simp [Nat.add_comm])
    (fun k hk => by
      have h2 : 1 + k = k + 1 := by omega
      rw [h2, List.getD_cons_succ])
    (by omega) (by simp)
  simpa [argmaxIdx] using h

theorem argmaxIdx_is_max (qs : List ℚ) (hne : qs ≠ []) :
    argmaxIdx qs < qs.length ∧
      ∀ j, j < qs.length → qs.getD j 0 ≤ qs.getD (argmaxIdx qs) 0 := by
  cases qs with
  | nil => exact absurd rfl hne
  | cons q rest =>
    rcases argmaxIdx_spec q rest with ⟨h1, h2⟩
    refine ⟨h1, fun j hj => ?_⟩
    rw [h2]
    cases j with
    | zero => simpa using le_foldl_max rest q
    | succ k =>
      have hk : k < rest.length := by
        simp only [List.length_cons] at hj
        omega
      rw [List.getD_cons_succ, List.getD_eq_getElem rest 0 hk]
      exact mem_le_foldl_max rest q _ (List.getElem_mem hk)

/-- C3: on Q-values qs and uniform draw u ∈ [0,1), epsilon-greedy takes the
argmax branch exactly when u < ε and otherwise returns the action-space
member picked by the uniform index draw; ε = 1 therefore always yields the
argmax action, ε = 0 never does and always samples the action space;
and argmaxIdx really is a maximising index. -/
theorem epsilon_greedy_selection (sel : EpsilonGreedyActionSelection)
    (agent : Agent) (observation : List ℚ) (u : ℚ) (choice : ℕ)
    (hu0 : 0 ≤ u) (hu1 : u < 1) (hspace : sel.action_space ≠ []) :
    (u < sel.epsilon →
      (sel.call agent observation u choice).2.2
        = argmaxIdx ((agent.model.to agent.device).forward observation)) ∧
    (¬ u < sel.epsilon →
      (sel.call agent observation u choice).2.2
          = sel.action_space.getD (choice % sel.action_space.length) 0 ∧
        (sel.call agent observation u choice).2.2 ∈ sel.action_space) ∧
    (sel.epsilon = 1 →
      (sel.call agent observation u choice).2.2
        = argmaxIdx ((agent.model.to agent.device).forward observation)) ∧
    (sel.epsilon = 0 →
      (sel.call agent observation u choice).2.2
          = sel.action_space.getD (choice % sel.action_space.length) 0 ∧
        (sel.call agent observation u choice).2.2 ∈ sel.action_space) ∧
    (∀ qs : List ℚ, qs ≠ [] →
      argmaxIdx qs < qs.length ∧
        ∀ j, j < qs.length → qs.getD j 0 ≤ qs.getD (argmaxIdx qs) 0) := by
  have hmem : sel.action_space.getD (choice % sel.action_space.length) 0
      ∈ sel.action_space := by
    have hlen : 0 < sel.action_space.length := List.length_pos.2 hspace
    have hmod : choice % sel.action_space.length < sel.action_space.length :=
      Nat.mod_lt _ hlen
    rw [List.getD_eq_getElem _ _ hmod]
    exact List.getElem_mem hmod
  have hbranch : ∀ h : u < sel.epsilon,
      (sel.call agent observation u choice).2.2
        = argmaxIdx ((agent.model.to agent.device).forward observation) := by
    intro h
    simp [EpsilonGreedyActionSelection.call, if_pos h]
  have hbranch' : ∀ _ : ¬ u < sel.epsilon,
      (sel.call agent observation u choice).2.2
        = sel.action_space.getD (choice % sel.action_space.length) 0 := by
    intro h
    simp [EpsilonGreedyActionSelection.call, if_neg h]
  refine ⟨hbranch, fun h => ⟨hbranch' h, by rw [hbranch' h]; exact hmem⟩, ?_, ?_,
    fun qs hne => argmaxIdx_is_max qs hne⟩
  · intro h1
    exact hbranch (by rw [h1]; exact hu1)
  · intro h0
    have hnot : ¬ u < sel.epsilon := by rw [h0]; exact not_lt.2 hu0
    exact ⟨hbranch' hnot, by rw [hbranch' hnot]; exact hmem⟩

theorem epsilon_greedy_selection_witness :
    (egSelEx.call agentEx [] (1 / 4) 5).2.2
        = argmaxIdx ((agentEx.model.to agentEx.device).forward []) ∧
      (egSelEx.call agentEx [] (1 / 4) 5).2.2 = 1 := by
  have h := epsilon_greedy_selection egSelEx agentEx [] (1 / 4) 5
    (by norm_num) (by norm_num) (by simp [egSelEx])
  have hb := h.1 (by norm_num [egSelEx])
  refine ⟨hb, ?_⟩
  rw [hb]
  decide

/-- C6 counterexample: at the concrete pre-first-call state cexAgent (model
on cpu, agent targeting cuda) a single epsilon-greedy call moves the model
to cuda — the agent's model is NOT left unchanged, because
`agent.model.to(agent.device)` (nn.Module.to) mutates the module's
placement in place. -/
theorem action_selector_moves_model :
    (cexSelector.call cexAgent [] 0 0).2.1.model.device = Device.cuda ∧
      cexAgent.model.device = Device.cpu ∧
      (cexSelector.call cexAgent [] 0 0).2.1.model.device
        ≠ cexAgent.model.device := by
  refine ⟨?_, rfl, ?_⟩
  · simp [cexSelector, cexAgent, cexModel, EpsilonGreedyActionSelection.call,
      Model.to]
  · simp [cexSelector, cexAgent, cexModel, EpsilonGreedyActionSelection.call,
      Model.to]

/-- C6 (amended): every selector call leaves the selector's own fields
unchanged and returns only the action (plus optional log-probability); the
agent is left unchanged except that the selectors that execute
`agent.model.to(agent.device)` (all but GreedyValueSelection) move the
agent's model to the agent's device — the model's function and the agent's
own device field are untouched, and when the model already sits on the
agent's device the whole agent is unchanged. -/
theorem action_selectors_frame (sel1 : PolicyGradientActionSelection)
    (sel2 : BayesianDropoutPGActionSelection) (sel3 : QActionSelection)
    (sel4 : EpsilonGreedyActionSelection) (sel5 : GreedyValueSelection)
    (agent : Agent) (observation : List ℚ) (u : ℚ) (draw choice : ℕ)
    (expf logf : ℚ → ℚ) (dropoutPass : ℕ → List ℚ → List ℚ) :
    ((sel1.call agent observation draw logf).1 = sel1 ∧
      (sel1.call agent observation draw logf).2.1
        = { agent with model := agent.model.to agent.device }) ∧
    ((sel2.call agent observation dropoutPass draw logf).1 = sel2 ∧
      (sel2.call agent observation dropoutPass draw logf).2.1
        = { agent with model := agent.model.to agent.device }) ∧
    ((sel3.call agent observation expf draw).1 = sel3 ∧
      (sel3.call agent observation expf draw).2.1
        = { agent with model := agent.model.to agent.device }) ∧
    ((sel4.call agent observation u choice).1 = sel4 ∧
      (sel4.call agent observation u choice).2.1
        = { agent with model := agent.model.to agent.device }) ∧
    ((sel5.call agent observation).1 = sel5 ∧
      (sel5.call agent observation).2.1 = agent) ∧
    ((agent.model.to agent.device).forward = agent.model.forward ∧
      (agent.model.to agent.device).device = agent.device) ∧
    (agent.model.device = agent.device →
      { agent with model := agent.model.to agent.device } = agent) := by
  refine ⟨⟨rfl, rfl⟩, ⟨rfl, rfl⟩, ⟨rfl, rfl⟩, ?_, ⟨rfl, rfl⟩, ⟨rfl, rfl⟩, ?_⟩
  · by_cases h : u < sel4.epsilon <;>
      simp [EpsilonGreedyActionSelection.call, h]
  · intro h
    cases agent with
    | mk m d =>
      cases m with
      | mk f md =>
        have h' : md = d := h
        subst h'
        rfl

/-- C10: QActionSelection scales the Q-values by dividing by the stored
temperature unconditionally — the call at temperature t, for every t
including 0, is the same softmax-of-divided-Q-values expression, with no
guard, branch or precondition on the temperature anywhere in the class
(rational division is total, so the temperature-0 call is still defined). -/
theorem qaction_temperature_unguarded :
    (∀ sel : QActionSelection, ∀ qs : List ℚ,
      sel.scaledQ qs = qs.map fun q => q / sel.temperature) ∧
    (∀ qs : List ℚ,
      QActionSelection.scaledQ { temperature := 0 } qs
        = qs.map fun q => q / (0 : ℚ)) ∧
    (∀ t : ℚ, ∀ (agent : Agent) (observation : List ℚ) (expf : ℚ → ℚ)
        (draw : ℕ),
      QActionSelection.call { temperature := t } agent observation expf draw
        = ({ temperature := t },
           { agent with model := agent.model.to agent.device },
           draw % (softmaxList expf
             (((agent.model.to agent.device).forward observation).map
               fun q => q / t)).length)) :=
  ⟨fun _ _ => rfl, fun _ => rfl, fun _ _ _ _ _ => rfl⟩

/-- C2: the TD target copies the predicted Q-row and moves only the taken
action's entry by exactly α·(r + γ·max_next − prediction[a]); every other
entry, and the row length, are unchanged. -/
theorem qlearner_td_target (alpha gamma : ℚ) (prediction : List ℚ) (a : ℕ)
    (r m : ℚ) (ha : a < prediction.length) :
    (tdTargetRow alpha gamma prediction a r m).getD a 0
        = prediction.getD a 0
          + alpha * (r + gamma * m - prediction.getD a 0) ∧
    (∀ j, j ≠ a → (tdTargetRow alpha gamma prediction a r m).getD j 0
        = prediction.getD j 0) ∧
    (tdTargetRow alpha gamma prediction a r m).length = prediction.length := by
  refine ⟨?_, ?_, by simp [tdTargetRow]⟩
  · have ha' : a < (tdTargetRow alpha gamma prediction a r m).length := by
      simpa [tdTargetRow] using ha
    rw [List.getD_eq_getElem _ _ ha']
    simp only [tdTargetRow]
    rw [List.getElem_set_self]
  · intro j hj
    by_cases hjl : j < prediction.length
    · have hjl' : j < (tdTargetRow alpha gamma prediction a r m).length := by
        simpa [tdTargetRow] using hjl

      rw [List.getD_eq_getElem _ _ hjl', List.getD_eq_getElem _ _ hjl]
      simp only [tdTargetRow]
      rw [List.getElem_set_ne (Ne.symm hj)]
    · have h1 : (tdTargetRow alpha gamma prediction a r m).length ≤ j := by
        simp only [tdTargetRow, List.length_set]
        omega
      rw [List.getD_eq_getElem?_getD, List.getD_eq_getElem?_getD,
        List.getElem?_eq_none h1, List.getElem?_eq_none (by omega)]

theorem qlearner_td_target_witness :
    (tdTargetRow (1 / 2) (1 / 10) [1, 2] 0 1 3).getD 0 0
        = ([1, 2] : List ℚ).getD 0 0
          + (1 / 2) * (1 + (1 / 10) * 3 - ([1, 2] : List ℚ).getD 0 0) ∧
    (tdTargetRow (1 / 2) (1 / 10) [1, 2] 0 1 3).getD 1 0
        = ([1, 2] : List ℚ).getD 1 0 ∧
    (tdTargetRow (1 / 2) (1 / 10) [1, 2] 0 1 3).length
        = ([1, 2] : List ℚ).length := by
  have h := qlearner_td_target (1 / 2) (1 / 10) [1, 2] 0 1 3 (by norm_num)
  exact ⟨h.1, h.2.1 1 (by norm_num), h.2.2⟩

theorem envSum_shift (f : ℕ → ℚ) (j n : ℕ) :
    ∑ k ∈ Finset.range (n + 1), f (j + k)
      = f j + ∑ k ∈ Finset.range n, f (j + 1 + k) := by
  rw [Finset.sum_range_succ']
  have h1 : ∀ k ∈ Finset.range n, f (j + (k + 1)) = f (j + 1 + k) := by
    intro k _
    have h2 : j + (k + 1) = j + 1 + k := by omega
    rw [h2]
  rw [Finset.sum_congr rfl h1, add_comm]
  simp only [Nat.add_zero]

theorem envList_shift (f : ℕ → ℚ) (j n : ℕ) :
    (List.range (n + 1)).map (fun k => f (j + k))
      = f j :: (List.range n).map fun k => f (j + 1 + k) := by
  have h1 : (List.range n).map ((fun k => f (j + k)) ∘ Nat.succ)
      = (List.range n).map fun k => f (j + 1 + k) := by
    refine List.map_congr_left fun k _ => ?_
    simp only [Function.comp_apply]
    congr 1
    omega
  rw [List.range_succ_eq_map, List.map_cons, List.map_map, h1]
  simp only [Nat.add_zero]

theorem playLoop_succ_true {env : ℕ → ℚ × Bool} {maxLen : Option ℕ}
    {i fuel : ℕ} {acc : ℚ} {mem : List ℚ}
    (h : termAt env maxLen i = true) :
    playLoop env maxLen (fuel + 1) i acc mem
      = some (acc + (env i).1, i + 1, mem ++ [(env i).1]) := by
  simp [playLoop, h]

theorem playLoop_succ_false {env : ℕ → ℚ × Bool} {maxLen : Option ℕ}
    {i fuel : ℕ} {acc : ℚ} {mem : List ℚ}
    (h : termAt env maxLen i = false) :
    playLoop env maxLen (fuel + 1) i acc mem
      = playLoop env maxLen fuel (i + 1) (acc + (env i).1)
          (mem ++ [(env i).1]) := by
  simp [playLoop, h]

/-- Running the episode loop when the first passing exit test is `d` steps
ahead: the loop consumes exactly the steps `j, …, j + d`, summing their
rewards and appending them to the episode memory. -/
theorem playLoop_run (env : ℕ → ℚ × Bool) (maxLen : Option ℕ) :
    ∀ (d fuel j : ℕ) (acc : ℚ) (mem : List ℚ),
      d + 1 ≤ fuel →
      termAt env maxLen (j + d) = true →
      (∀ k, k < d → termAt env maxLen (j + k) = false) →
      playLoop env maxLen fuel j acc mem =
        some (acc + ∑ k ∈ Finset.range (d + 1), (env (j + k)).1,
              j + d + 1,
              mem ++ (List.range (d + 1)).map fun k => (env (j + k)).1) := by
  intro d
  induction d with
  | zero =>
    intro fuel j acc mem hfuel hterm hmin
    cases fuel with
    | zero => omega
    | succ f =>
      simp only [Nat.add_zero] at hterm
      rw [playLoop_succ_true hterm]
      simp [Finset.sum_range_one, List.range_succ]
  | succ d ih =>
    intro fuel j acc mem hfuel hterm hmin
    cases fuel with
    | zero => omega
    | succ f =>
      have h0 : termAt env maxLen j = false := by
        have := hmin 0 (by omega)
        simpa using this
      rw [playLoop_succ_false h0]
      have hterm' : termAt env maxLen (j + 1 + d) = true := by
        have he : j + 1 + d = j + (d + 1) := by omega
        rw [he]
        exact hterm
      have hmin' : ∀ k, k < d → termAt env maxLen (j + 1 + k) = false := by
        intro k hk
        have he : j + 1 + k = j + (k + 1) := by omega
        rw [he]
        exact hmin (k + 1) (by omega)
      rw [ih f (j + 1) (acc + (env j).1) (mem ++ [(env j).1]) (by omega)
        hterm' hmin']
      have hsum : acc + (env j).1
            + ∑ k ∈ Finset.range (d + 1), (env (j + 1 + k)).1
          = acc + ∑ k ∈ Finset.range (d + 1 + 1), (env (j + k)).1 := by
        rw [envSum_shift (fun n => (env n).1) j (d + 1)]
        ring
      have hlist : (mem ++ [(env j).1])
            ++ (List.range (d + 1)).map (fun k => (env (j + 1 + k)).1)
          = mem ++ (List.range (d + 1 + 1)).map fun k => (env (j + k)).1 := by
        rw [envList_shift (fun n => (env n).1) j (d + 1)]
        simp [List.append_assoc]
      have hidx : j + 1 + d + 1 = j + (d + 1) + 1 := by omega
      rw [hsum, hlist, hidx]

/-- Inversion of the episode loop: whatever fuel sufficed, the loop's
outputs are the stepwise rewards of the environment from the start index to
the exit step, their sum, and the exit step count. -/
theorem playLoop_inv (env : ℕ → ℚ × Bool) (maxLen : Option ℕ) :
    ∀ (fuel j : ℕ) (acc : ℚ) (mem : List ℚ) (R : ℚ) (T : ℕ) (out : List ℚ),
      playLoop env maxLen fuel j acc mem = some (R, T, out) →
      j < T ∧
        out = mem ++ (List.range (T - j)).map (fun k => (env (j + k)).1) ∧
        R = acc + ∑ k ∈ Finset.range (T - j), (env (j + k)).1 := by
  intro fuel
  induction fuel with
  | zero =>
    intro j acc mem R T out h
    simp [playLoop] at h
  | succ f ih =>
    intro j acc mem R T out h
    rcases Bool.eq_false_or_eq_true (termAt env maxLen j) with hc | hc
    swap
    · rw [playLoop_succ_false hc] at h
      obtain ⟨hjT, hout, hR⟩ := ih (j + 1) (acc + (env j).1)
        (mem ++ [(env j).1]) R T out h
      refine ⟨by omega, ?_, ?_⟩
      · rw [hout]
        have hd : T - j = (T - (j + 1)) + 1 := by omega
        rw [hd, envList_shift (fun n => (env n).1) j (T - (j + 1))]
        simp [List.append_assoc]
      · rw [hR]
        have hd : T - j = (T - (j + 1)) + 1 := by omega
        rw [hd, envSum_shift (fun n => (env n).1) j (T - (j + 1))]
        ring
    · rw [playLoop_succ_true hc] at h
      rw [Option.some.injEq, Prod.mk.injEq, Prod.mk.injEq] at h
      obtain ⟨hR, hT, hout⟩ := h
      refine ⟨by omega, ?_, ?_⟩
      · have hd : T - j = 1 := by omega
        rw [hd, ← hout]
        simp [List.range_succ]
      · have hd : T - j = 1 := by omega
        rw [hd, ← hR]
        simp [Finset.sum_range_one]

/-- C5: the episode loop exits at the first step whose exit test passes —
the environment signalling done, or (when max_episode_length is set) the
step counter reaching it — and, provided the environment eventually
signals done or a max episode length is set, the loop terminates with
episode reward equal to the sum of the raw per-step rewards taken. -/
theorem play_episode_terminates (env : ℕ → ℚ × Bool) (maxLen : Option ℕ)
    (h : (∃ n, (env n).2 = true) ∨ ∃ L, maxLen = some L) :
    ∃ T, 0 < T ∧ termAt env maxLen (T - 1) = true ∧
      (∀ k, k + 1 < T → termAt env maxLen k = false) ∧
      ∀ fuel, T ≤ fuel →
        playLoop env maxLen fuel 0 0 [] =
          some (∑ k ∈ Finset.range T, (env k).1, T,
                (List.range T).map fun k => (env k).1) := by
  have hex : ∃ i, termAt env maxLen i = true := by
    rcases h with ⟨n, hn⟩ | ⟨L, hL⟩
    · exact ⟨n, by simp [termAt, hn]⟩
    · exact ⟨L, by simp [termAt, hL, Nat.le_succ]⟩
  refine ⟨Nat.find hex + 1, Nat.succ_pos _, by simpa using Nat.find_spec hex,
    ?_, ?_⟩
  · intro k hk
    have := Nat.find_min hex (m := k) (by omega)
    simpa using this
  · intro fuel hfuel
    have hrun := playLoop_run env maxLen (Nat.find hex) fuel 0 0 []
      (by omega) (by simpa using Nat.find_spec hex)
      (fun k hk => by simpa using Nat.find_min hex hk)
    simpa using hrun

theorem play_episode_terminates_witness :
    ∃ T, 0 < T ∧ termAt envEx none (T - 1) = true ∧
      (∀ k, k + 1 < T → termAt envEx none k = false) ∧
      ∀ fuel, T ≤ fuel →
        playLoop envEx none fuel 0 0 [] =
          some (∑ k ∈ Finset.range T, (envEx k).1, T,
                (List.range T).map fun k => (envEx k).1) :=
  play_episode_terminates envEx none (Or.inl ⟨1, rfl⟩)

theorem getD_map_range (f : ℕ → ℚ) (T t : ℕ) (h : t < T) :
    ((List.range T).map f).getD t 0 = f t := by
  rw [List.getD_eq_getElem?_getD, List.getElem?_map, List.getElem?_range h]
  rfl

/-- C4: out of one and the same episode loop, PolicyGradient.play_episode
merges the cumul_reward-transformed rewards into the persistent memory
while QLearner.play_episode merges the raw environment rewards untouched:
the QLearner suffix reproduces the per-step environment rewards exactly,
whereas the PolicyGradient suffix satisfies the discounted-return
recurrence over the episode's raw rewards. -/
theorem pg_discounts_ql_raw (env : ℕ → ℚ × Bool) (maxLen : Option ℕ)
    (gamma : ℚ) (old : List ℚ) (fuel : ℕ) (R : ℚ) (T : ℕ) (epmem : List ℚ)
    (h : playLoop env maxLen fuel 0 0 [] = some (R, T, epmem)) :
    qlMergedRewards old epmem = old ++ epmem ∧
    (∀ t, t < T →
      (qlMergedRewards old epmem).getD (old.length + t) 0 = (env t).1) ∧
    pgMergedRewards gamma old epmem = old ++ cumulReward gamma epmem ∧
    (∀ t, (pgMergedRewards gamma old epmem).getD (old.length + t) 0
        = epmem.getD t 0
          + gamma * (pgMergedRewards gamma old epmem).getD
              (old.length + (t + 1)) 0) ∧
    (pgMergedRewards gamma old epmem).length = old.length + T := by
  obtain ⟨hT, hout, hR⟩ := playLoop_inv env maxLen fuel 0 0 [] R T epmem h
  have hep : epmem = (List.range T).map fun k => (env k).1 := by
    simpa using hout
  have hepl : epmem.length = T := by
    rw [hep]
    simp
  have hgetD : ∀ (l2 : List ℚ) (t : ℕ),
      (old ++ l2).getD (old.length + t) 0 = l2.getD t 0 := by
    intro l2 t
    rw [List.getD_append_right _ _ _ _ (by omega)]
    congr 1
    omega
  refine ⟨rfl, ?_, rfl, ?_, ?_⟩
  · intro t ht
    simp only [qlMergedRewards]
    rw [hgetD epmem t, hep, getD_map_range _ T t ht]
  · intro t
    simp only [pgMergedRewards]
    rw [hgetD _ t, hgetD _ (t + 1)]
    exact cumulReward_recurrence gamma epmem t
  · simp only [pgMergedRewards]
    rw [List.length_append, cumulReward_length, hepl]

theorem pg_ql_merge_witness :
    qlMergedRewards [5] [1, 1] = [5] ++ [1, 1] ∧
      (pgMergedRewards (1 / 2) [5] [1, 1]).length
        = ([5] : List ℚ).length + 2 := by
  have hrun : playLoop envEx none 2 0 0 [] = some (2, 2, [1, 1]) := by
    have h1 : termAt envEx none 0 = false := by simp [termAt, envEx]
    have h2 : termAt envEx none 1 = true := by simp [termAt, envEx]
    rw [playLoop_succ_false h1, playLoop_succ_true h2]
    norm_num [envEx]
  have h := pg_discounts_ql_raw envEx none (1 / 2) [5] 2 2 2 [1, 1] hrun
  exact ⟨h.1, h.2.2.2.2⟩

theorem pgFitLoop_eq (crit : List ℚ × List ℚ → ℚ) :
    ∀ (bs : List (List ℚ × List ℚ)) (acc : List ℚ),
      pgFitLoop crit bs acc = acc ++ bs.map crit := by
  intro bs
  induction bs with
  | nil => intro acc; simp [pgFitLoop]
  | cons b bs ih => intro acc; simp [pgFitLoop, ih]

/-- C7: PolicyGradient.fit_epoch returns the arithmetic mean of the
per-batch losses of the epoch and appends that same mean to
train_dict['train_losses']. -/
theorem pg_fit_epoch_mean (crit : List ℚ × List ℚ → ℚ)
    (batches : List (List ℚ × List ℚ)) (trainLosses : List ℚ)
    (h : batches ≠ []) :
    (pgFitEpoch crit batches trainLosses).1
        = (batches.map crit).sum / ((batches.map crit).length : ℚ) ∧
    (batches.map crit).length = batches.length ∧
    (pgFitEpoch crit batches trainLosses).2
        = trainLosses ++ [(pgFitEpoch crit batches trainLosses).1] := by
  refine ⟨?_, by simp, rfl⟩
  simp only [pgFitEpoch, npMean, pgFitLoop_eq crit batches [], List.nil_append]

theorem pg_fit_epoch_mean_witness :
    (pgFitEpoch critEx [([1], [0]), ([3], [0])] []).1
        = (([([1], [0]), ([3], [0])] : List (List ℚ × List ℚ)).map critEx).sum
          / ((([([1], [0]), ([3], [0])] :
                List (List ℚ × List ℚ)).map critEx).length : ℚ) ∧
    (pgFitEpoch critEx [([1], [0]), ([3], [0])] []).2
        = [] ++ [(pgFitEpoch critEx [([1], [0]), ([3], [0])] []).1] := by
  have h := pg_fit_epoch_mean critEx [([1], [0]), ([3], [0])] [] (by simp)
  exact ⟨h.1, h.2.2⟩

theorem bestPerf_foldl_some (l : List ℚ) :
    ∀ x : ℚ, l.foldl bestPerfUpdate (some x) = some (l.foldl max x) := by
  induction l with
  | nil => intro x; rfl
  | cons y l ih =>
    intro x
    have h : bestPerfUpdate (some x) y = some (max x y) := by
      simp only [bestPerfUpdate]
      rcases lt_or_le x y with hxy | hxy
      · rw [if_pos hxy, max_eq_right (le_of_lt hxy)]
      · rw [if_neg (not_lt.2 hxy), max_eq_left hxy]
    simp only [List.foldl_cons, h, ih]

/-- C8: after each play_episode call, best_performance holds the maximum
episode reward observed so far: it is an upper bound of all rewards played,
is itself one of them, is at least the reward just returned, and never
decreases from its value before the call. -/
theorem best_performance_is_running_max (rewards : List ℚ) (r : ℚ) :
    ∃ b, bestPerfAfter (rewards ++ [r]) = some b ∧
      (∀ x ∈ rewards ++ [r], x ≤ b) ∧ b ∈ rewards ++ [r] ∧ r ≤ b ∧
      ∀ b0, bestPerfAfter rewards = some b0 → b0 ≤ b := by
  cases rewards with
  | nil =>
    refine ⟨r, rfl, ?_, by simp, le_refl r, ?_⟩
    · intro x hx
      have : x = r := by simpa using hx
      rw [this]
    · intro b0 h0
      exact absurd h0 (by simp [bestPerfAfter])
  | cons x xs =>
    have hfold : bestPerfAfter ((x :: xs) ++ [r])
        = some ((xs ++ [r]).foldl max x) := by
      show (xs ++ [r]).foldl bestPerfUpdate (bestPerfUpdate none x) = _
      exact bestPerf_foldl_some (xs ++ [r]) x
    refine ⟨(xs ++ [r]).foldl max x, hfold, ?_, ?_, ?_, ?_⟩
    · intro q hq
      have hq' : q = x ∨ q ∈ xs ∨ q = r := by simpa using hq
      rcases hq' with hh | hh | hh
      · rw [hh]
        exact le_foldl_max (xs ++ [r]) x
      · exact mem_le_foldl_max (xs ++ [r]) x q (by simp [hh])
      · exact mem_le_foldl_max (xs ++ [r]) x q (by simp [hh])
    · rcases foldl_max_mem (xs ++ [r]) x with hh | hh
      · rw [hh]
        simp
      · rw [List.cons_append]
        exact List.mem_cons_of_mem x hh
    · exact mem_le_foldl_max (xs ++ [r]) x r (by simp)
    · intro b0 h0
      have hprev : bestPerfAfter (x :: xs) = some (xs.foldl max x) := by
        show xs.foldl bestPerfUpdate (bestPerfUpdate none x) = _
        exact bestPerf_foldl_some xs x
      rw [hprev, Option.some.injEq] at h0
      rw [← h0, List.foldl_append]
      simp only [List.foldl_cons, List.foldl_nil]
      exact le_max_left _ r

theorem qlFitLoop_eq {B : Type} (lossOf : B → ℚ) :
    ∀ (bs : List B) (tl : List ℚ) (last : Option ℚ),
      qlFitLoop lossOf bs tl last
        = (tl ++ bs.map lossOf,
           if bs.isEmpty then last else (bs.map lossOf).getLast?) := by
  intro bs
  induction bs with
  | nil => intro tl last; simp [qlFitLoop]
  | cons b bs ih =>
    intro tl last
    show qlFitLoop lossOf bs (tl ++ [lossOf b]) (some (lossOf b)) = _
    rw [ih (tl ++ [lossOf b]) (some (lossOf b))]
    cases bs with
    | nil => simp
    | cons c cs => simp [List.getLast?_cons_cons]

/-- C9: QLearner.fit_epoch appends every individual batch loss to
train_dict['train_losses'] but returns only the last batch's loss — not
the mean across batches (a concrete run shows last ≠ mean) — and with no
batches the returned name is unbound (modelled as none). -/
theorem ql_fit_epoch_returns_last
    (lossOf : ℕ × List ℚ × ℚ × List ℚ → ℚ)
    (batches : List (ℕ × List ℚ × ℚ × List ℚ)) (trainLosses : List ℚ) :
    qlFitEpoch lossOf batches trainLosses
        = (trainLosses ++ batches.map lossOf, (batches.map lossOf).getLast?) ∧
    (batches = [] →
      qlFitEpoch lossOf batches trainLosses = (trainLosses, none)) ∧
    qlFitEpoch (fun b : ℕ × List ℚ × ℚ × List ℚ => b.2.2.1)
        ([(0, [], 1, []), (0, [], 2, [])] : List (ℕ × List ℚ × ℚ × List ℚ))
        ([] : List ℚ)
        = ([1, 2], some 2) ∧
    npMean [1, 2] ≠ (2 : ℚ) := by
  refine ⟨?_, ?_, rfl, by norm_num [npMean]⟩
  · rw [qlFitEpoch, qlFitLoop_eq]
    cases batches with
    | nil => simp
    | cons b bs => simp
  · intro hb
    rw [hb]
    rfl

end PyMatch
